import Mathlib

/-!
Verification of the panel-construction and point-in-time analysis engine of the
`ctrlaltdata` repository. The definitions below are shallow embeddings of the
functions in `ctrlaltdata/analysis.py`, `ctrlaltdata/panel_constructors.py`,
`ctrlaltdata/api.py` and `ctrlaltdata/util.py`. Machine data frames are
modelled as lists of records; pandas primitives (sort_values, groupby, shift,
merge_asof, qcut, rank) are modelled by explicit list operations with the same
semantics. Dates are integers, weights and feature values are rationals.
-/

namespace CtrlAltData

/-!
Identifier normalization, from `util.py` (`cusip_abbrev_to_full`,
`sedol_abbrev_to_full`) and the check digit routines of the `stdnum`
library that they call. A value of `none` models a raised Python exception
(an identifier character outside the scheme alphabet).
-/

/-- The CUSIP alphabet used by `stdnum.cusip.calc_check_digit`. -/
def cusipAlphabet : List Char := "0123456789ABCDEFGHIJKLMNOPQRSTUVWXYZ*@#".toList

/-- Index of a character in the CUSIP alphabet; `none` models the ValueError
raised by `alphabet.index` on a foreign character. -/
def alphabetIndex (c : Char) : Option Nat := List.indexOf? c cusipAlphabet

/-- Decimal digit sum of a value below 100, as computed by summing the digits
of `str(v)` in `stdnum.cusip.calc_check_digit` (the weighted alphabet indices
there never exceed 78). -/
def digitSum2 (v : Nat) : Nat := v / 10 + v % 10

/-- Effectful map over a list, failing when any element fails; models a Python
list comprehension in which the element expression may raise. -/
def traverseOption (f : α → Option β) : List α → Option (List β)
  | [] => some []
  | a :: t =>
    match f a, traverseOption f t with
    | some b, some bs => some (b :: bs)
    | _, _ => none

/-- `stdnum.cusip.calc_check_digit`: alternate weights 1, 2 over the character
positions, sum the decimal digits of each weighted alphabet index, and return
the single digit `(10 - total) % 10` as a character. -/
def cusipCheckDigit (number : List Char) : Option Char :=
  (traverseOption (fun ic =>
      (alphabetIndex ic.2).map (fun idx => digitSum2 ((if ic.1 % 2 = 0 then 1 else 2) * idx)))
    number.enum).map
    (fun vs => Char.ofNat (48 + (10 - vs.sum % 10) % 10))

/-- Base-36 digit value of a character, as `int(c, 36)` in Python. -/
def base36Value (c : Char) : Option Nat :=
  if '0' ≤ c ∧ c ≤ '9' then some (c.toNat - 48)
  else if 'a' ≤ c ∧ c ≤ 'z' then some (c.toNat - 97 + 10)
  else if 'A' ≤ c ∧ c ≤ 'Z' then some (c.toNat - 65 + 10)
  else none

/-- The SEDOL check weights of `stdnum.gb.sedol`. -/
def sedolWeights : List Nat := [1, 3, 1, 7, 3, 9]

/-- `stdnum.gb.sedol.calc_check_digit`: weighted base-36 sum, then the single
digit `(10 - total) % 10` as a character. -/
def sedolCheckDigit (number : List Char) : Option Char :=
  (traverseOption (fun wc => (base36Value wc.2).map (fun v => wc.1 * v))
      (sedolWeights.zip number)).map
    (fun vs => Char.ofNat (48 + (10 - vs.sum % 10) % 10))

/-- `util.cusip_abbrev_to_full`: append the computed check digit to each
abbreviated cusip in the list. -/
def cusip_abbrev_to_full (cusip8 : List (List Char)) : Option (List (List Char)) :=
  traverseOption (fun i => (cusipCheckDigit i).map (fun d => i ++ [d])) cusip8

/-- `util.sedol_abbrev_to_full`: append the computed check digit to each
abbreviated sedol in the list. -/
def sedol_abbrev_to_full (sedol6 : List (List Char)) : Option (List (List Char)) :=
  traverseOption (fun i => (sedolCheckDigit i).map (fun d => i ++ [d])) sedol6

/-- The cusip branch of `BaseFeaturesAccessor._add_security_key_abbrev`:
`i[:8]` of a full security key. -/
def securityKeyAbbrevCusip (security_key : List Char) : List Char := security_key.take 8

/-- The sedol branch of `BaseFeaturesAccessor._add_security_key_abbrev`:
`i[:6]` of a full security key. -/
def securityKeyAbbrevSedol (security_key : List Char) : List Char := security_key.take 6

/-!
Walk-forward date generation, from `AnalysisAccessor.generate_dates` in
`analysis.py`. The argument `dates` stands for the sorted distinct panel dates
`sorted(self._obj.date.unique())`; dates and the lookback are integers.
-/

/-- The dictionary yielded at one step of `generate_dates`. -/
structure DateInfo where
  present_date : Int
  past_begin : Int
  past_end : Int
  future_date : Int
deriving Repr, DecidableEq

/-- One iteration of the loop body of `generate_dates` at index `i`: the guard
`i >= burn_in_steps and len(dates) > i + prediction_steps and
i - prediction_steps >= 0` followed by the inner `present_date > dates[0]`
check, yielding the date dictionary when both pass. -/
def emitAt (dates : List Int) (prediction_steps burn_in_steps : Nat) (lookback : Int)
    (i : Nat) : Option DateInfo :=
  match dates.get? i with
  | none => none
  | some present_date =>
    if burn_in_steps ≤ i ∧ i + prediction_steps < dates.length ∧ prediction_steps ≤ i then
      if dates.getD 0 0 < present_date then
        some { present_date := present_date,
               past_begin := present_date - lookback,
               past_end := present_date,
               future_date := dates.getD (i + prediction_steps) 0 }
      else none
    else none

/-- `AnalysisAccessor.generate_dates`: the sequence of date dictionaries
yielded over the enumeration of the sorted distinct dates. -/
def generate_dates (dates : List Int) (prediction_steps burn_in_steps : Nat)
    (lookback : Int) : List DateInfo :=
  (List.range dates.length).filterMap (emitAt dates prediction_steps burn_in_steps lookback)

/-!
Weight renormalization, from the `renormalize_weights` block of
`panel_constructors.get_gic_panel`: merge the per-date sum of `index_weight`
onto the panel and divide each weight by the sum for its date.
-/

/-- A row of the panel reaching the renormalization block of `get_gic_panel`. -/
structure WeightRow where
  date : Int
  security : Int
  index_weight : ℚ
deriving Repr, DecidableEq

/-- `panel.groupby('date').sum()['index_weight']` evaluated at date `d`. -/
def dateWeightSum (panel : List WeightRow) (d : Int) : ℚ :=
  ((panel.filter (fun r => decide (r.date = d))).map (·.index_weight)).sum

/-- The renormalization block of `get_gic_panel`:
`panel['index_weight'] = panel['index_weight'] / panel['weight_sum']` after
merging the per-date `weight_sum` onto every row. -/
def renormalizeWeights (panel : List WeightRow) : List WeightRow :=
  panel.map (fun r => { r with index_weight := r.index_weight / dateWeightSum panel r.date })

/-!
Asof merging, from `BaseFeaturesAccessor._asof_merge_feature` in `api.py`.
Both frames are sorted on the time key, and `pandas.merge_asof` attaches to
each panel row the last feature row of the matching by-group whose time value
is at most (`allow_exact_matches=True`) or strictly below
(`allow_exact_matches=False`) the panel time value.
-/

/-- A row of the feature frame handed to `_asof_merge_feature`. -/
structure FeatureRow where
  key : Int
  date : Int
  value : Int
deriving Repr, DecidableEq

/-- A row of the panel on which `_asof_merge_feature` is invoked. -/
structure PanelRow where
  key : Int
  date : Int
deriving Repr, DecidableEq

/-- Comparison on the `on` column used by `feature.sort_values(on)`. -/
def featureDateLe (a b : FeatureRow) : Prop := a.date ≤ b.date

instance : DecidableRel featureDateLe :=
  fun a b => inferInstanceAs (Decidable (a.date ≤ b.date))

instance : IsTotal FeatureRow featureDateLe := ⟨fun a b => Int.le_total a.date b.date⟩

instance : IsTrans FeatureRow featureDateLe := ⟨fun _ _ _ h1 h2 => le_trans h1 h2⟩

/-- Eligibility of a feature row for the asof match of a panel row with by-key
`k` and time value `t`. -/
def asofEligible (exact_match_allowed : Bool) (t k : Int) (f : FeatureRow) : Bool :=
  decide (f.key = k ∧ (if exact_match_allowed then f.date ≤ t else f.date < t))

/-- The backward asof match of `pandas.merge_asof` for one panel row: the last
eligible row of the time-sorted feature frame. -/
def asofMatch (feature : List FeatureRow) (k t : Int) (exact_match_allowed : Bool) :
    Option FeatureRow :=
  ((List.insertionSort featureDateLe feature).filter
    (asofEligible exact_match_allowed t k)).getLast?

/-- `BaseFeaturesAccessor._asof_merge_feature`: sort both frames on the time
key and attach to each panel row its asof match from the feature frame. -/
def asofMergeFeature (panel : List PanelRow) (feature : List FeatureRow)
    (exact_match_allowed : Bool) : List (PanelRow × Option FeatureRow) :=
  panel.map (fun p => (p, asofMatch feature p.key p.date exact_match_allowed))

/-!
Discrete-step lagging, from
`AnalysisAccessor.add_lagged_feature_on_date_by_key` in `analysis.py`: sort
the panel by date, group by the security key, and shift the feature column by
`lag` positions inside each group.
-/

/-- A row of a panel being lagged: key, date and the feature value. -/
structure LagRow where
  key : Int
  date : Int
  value : Int
deriving Repr, DecidableEq

/-- Comparison on the date column used by `self._obj.sort_values('date')`. -/
def lagRowDateLe (a b : LagRow) : Prop := a.date ≤ b.date

instance : DecidableRel lagRowDateLe :=
  fun a b => inferInstanceAs (Decidable (a.date ≤ b.date))

instance : IsTotal LagRow lagRowDateLe := ⟨fun a b => Int.le_total a.date b.date⟩

instance : IsTrans LagRow lagRowDateLe := ⟨fun _ _ _ h1 h2 => le_trans h1 h2⟩

/-- `pandas.Series.shift(lag)` on a column of non-null values: position `i` of
the result holds the value from position `i - lag` of the input when that
position exists, and a null otherwise. -/
def shiftList (lag : Int) (xs : List α) : List (Option α) :=
  (List.range xs.length).map (fun (i : Nat) =>
    if 0 ≤ (i : Int) - lag then xs.get? ((i : Int) - lag).toNat else none)

/-- The rows of the date-sorted panel belonging to the key group `k`, in the
order seen by `groupby(key).apply(shift_column)`. -/
def sortedGroup (panel : List LagRow) (k : Int) : List LagRow :=
  (List.insertionSort lagRowDateLe panel).filter (fun r => decide (r.key = k))

/-- The key group `k` of `add_lagged_feature_on_date_by_key`, paired with the
shifted feature column appended by the accessor. -/
def laggedGroup (panel : List LagRow) (k : Int) (lag : Int) : List (LagRow × Option Int) :=
  (sortedGroup panel k).zip (shiftList lag ((sortedGroup panel k).map (·.value)))

/-!
Cross-sectional mean-centering, from `AnalysisAccessor._mean_center` in
`analysis.py`: the in-universe mean is computed per (key, date) group over
`in_index == 1` rows, merged back (an inner join, which drops groups without
any in-universe row) and subtracted from every matching row.
-/

/-- A row of the subpanel handed to `_mean_center`. -/
structure UniverseRow where
  key : Int
  date : Int
  in_index : Nat
  value : ℚ
deriving Repr, DecidableEq

/-- Membership of a row in the in-universe part of the (k, d) group. -/
def inUniverseAt (k d : Int) (r : UniverseRow) : Bool :=
  decide (r.key = k ∧ r.date = d ∧ r.in_index = 1)

/-- The in-universe group mean
`subpanel[subpanel.in_index == 1].groupby(key + ['date']).mean()` at (k, d). -/
def inUniverseMean (panel : List UniverseRow) (k d : Int) : ℚ :=
  ((panel.filter (inUniverseAt k d)).map (·.value)).sum /
    ((panel.filter (inUniverseAt k d)).length : ℚ)

/-- Whether the (k, d) group owns at least one in-universe row, hence a row in
the grouped mean frame `panel_mean`. -/
def hasInUniverse (panel : List UniverseRow) (k d : Int) : Bool :=
  panel.any (inUniverseAt k d)

/-- `AnalysisAccessor._mean_center` for a single feature column: rows whose
(key, date) group has an in-universe mean keep their identity and get the mean
subtracted; rows of groups absent from `panel_mean` are dropped by the inner
merge. -/
def meanCenter (panel : List UniverseRow) : List UniverseRow :=
  (panel.filter (fun r => hasInUniverse panel r.key r.date)).map
    (fun r => { r with value := r.value - inUniverseMean panel r.key r.date })

/-!
Quantile bucketing, from `AnalysisAccessor.quantile_on_date_by_key` in
`analysis.py`, which applies `pandas.qcut(column, k, labels=range(k))` to each
(date, key) group. `qcut` computes `k + 1` linearly interpolated quantile
edges, raises `ValueError` when the edges are not pairwise distinct, and
otherwise assigns to each value the right-closed bin it falls into.
-/

/-- The values of a group sorted ascending, as `numpy.percentile` sees them. -/
def sortedVals (xs : List ℚ) : List ℚ := List.insertionSort (· ≤ ·) xs

/-- Linear-interpolation quantile of a group at probability `num / den`:
position `h = (n - 1) * num / den` between the sorted values, interpolating
between the neighbouring order statistics. -/
def quantileLin (xs : List ℚ) (num den : Nat) : ℚ :=
  let s := sortedVals xs
  let hNum := (s.length - 1) * num
  let j := hNum / den
  let frac : ℚ := (hNum : ℚ) / (den : ℚ) - (j : ℚ)
  let xj := s.getD j 0
  xj + frac * (s.getD (j + 1) xj - xj)

/-- The `k + 1` quantile bin edges computed by `pandas.qcut`. -/
def qcutEdges (xs : List ℚ) (k : Nat) : List ℚ :=
  (List.range (k + 1)).map (fun i => quantileLin xs i k)

/-- The integer bucket label of a value: the number of non-terminal upper bin
edges strictly below it (bins are right-closed, the lowest bin includes the
minimum). -/
def qcutLabel (edges : List ℚ) (x : ℚ) : Nat :=
  ((edges.drop 1).dropLast).countP (fun e => decide (e < x))

/-- `pandas.qcut(xs, k, labels=range(k))` on one group: `none` models the
`ValueError` raised on duplicate bin edges. -/
def qcutModel (xs : List ℚ) (k : Nat) : Option (List Nat) :=
  if (qcutEdges xs k).Nodup then some (xs.map (qcutLabel (qcutEdges xs k))) else none

/-- The number of distinct values in a group. -/
def distinctCount (xs : List ℚ) : Nat := xs.dedup.length

/-!
Ranking, from `AnalysisAccessor.rank_on_date_by_key` in `analysis.py`, which
applies `column.rank(ascending=ascending).astype(int)` to each (date, key)
group. `pandas.Series.rank` defaults to `method='average'`: tied values share
the arithmetic mean of their positional ranks, and `astype(int)` truncates.
-/

/-- The rank `column.rank(ascending=...)` assigns to the value `x` inside the
group `xs`, after the integer cast: the average of the positional ranks of the
tie class of `x`, truncated. -/
def rankValue (ascending : Bool) (xs : List ℚ) (x : ℚ) : Int :=
  Rat.floor ((xs.countP (fun y => decide (if ascending then y < x else x < y)) : ℚ) +
    ((xs.countP (fun y => decide (y = x)) : ℚ) + 1) / 2)

/-- The ranked column produced for one (date, key) group by
`rank_on_date_by_key`. -/
def rankColumn (ascending : Bool) (xs : List ℚ) : List Int :=
  xs.map (rankValue ascending xs)

/-!
Duplicate membership resolution, from `get_index_from_datastream` in
`panel_constructors.py`:
`panel.sort_values(['infocode', 'date', 'in_index'], ascending=False)
.groupby(['infocode', 'date']).first()` keeps, for every (infocode, date)
pair, the first row of the group after sorting descending on `in_index`.
-/

/-- A membership row of the dense date-by-entity grid built by
`get_index_from_datastream`. -/
structure MembershipRow where
  infocode : Int
  date : Int
  in_index : Nat
  payload : Int
deriving Repr, DecidableEq

/-- Descending comparison on `in_index`, the effective within-group order of
`sort_values([..., 'in_index'], ascending=False)`. -/
def inIndexGe (a b : MembershipRow) : Prop := b.in_index ≤ a.in_index

instance : DecidableRel inIndexGe :=
  fun a b => inferInstanceAs (Decidable (b.in_index ≤ a.in_index))

instance : IsTotal MembershipRow inIndexGe := ⟨fun a b => Nat.le_total b.in_index a.in_index⟩

instance : IsTrans MembershipRow inIndexGe := ⟨fun _ _ _ h1 h2 => le_trans h2 h1⟩

/-- The distinct (infocode, date) pairs of the panel, the group keys of
`groupby(['infocode', 'date'])`. -/
def membershipKeys (panel : List MembershipRow) : List (Int × Int) :=
  (panel.map (fun r => (r.infocode, r.date))).dedup

/-- The rows of one (infocode, date) group. -/
def keyGroup (panel : List MembershipRow) (k : Int × Int) : List MembershipRow :=
  panel.filter (fun r => decide (r.infocode = k.1 ∧ r.date = k.2))

/-- The duplicate-resolution step of `get_index_from_datastream`: per
(infocode, date) group, the first row after sorting descending on `in_index`. -/
def resolveDuplicates (panel : List MembershipRow) : List MembershipRow :=
  (membershipKeys panel).filterMap
    (fun k => (List.insertionSort inIndexGe (keyGroup panel k)).head?)

/-!
Identifier backfill, from `__fill_missing_values` in `panel_constructors.py`:
grid cells without a point-in-time mapping are filled through the
non-point-in-time current-mapping table, restricted to unambiguous infocodes,
and concatenated with the point-in-time fill rows; the function asserts that
the result has exactly as many rows as the input panel.
-/

/-- A cell of the dense (infocode, date) grid. -/
structure GridRow where
  infocode : Int
  date : Int
deriving Repr, DecidableEq

/-- A grid cell with its (possibly missing) resolved security key. -/
structure FilledRow where
  infocode : Int
  date : Int
  security_key : Option Int
deriving Repr, DecidableEq

/-- A row of the non-point-in-time `vw_Ds2Mapping` current-mapping table. -/
structure MappingRow where
  infocode : Int
  security_key : Int
deriving Repr, DecidableEq

/-- `simple_query[~simple_query.infocode.duplicated(keep=False)]`: the rows of
the current-mapping table whose infocode occurs exactly once. -/
def unambiguousMappings (sq : List MappingRow) : List MappingRow :=
  sq.filter (fun r => decide (sq.countP (fun s => decide (s.infocode = r.infocode)) = 1))

/-- `missing_panel.merge(simple_query_unambigious, on='infocode', how='left')`:
every left row is emitted once per matching right row, or once with missing
fields when no right row matches. -/
def leftMergeInfocode (left : List GridRow) (right : List MappingRow) : List FilledRow :=
  left.flatMap (fun l =>
    let ms := right.filter (fun m => decide (m.infocode = l.infocode))
    if ms.isEmpty then [⟨l.infocode, l.date, none⟩]
    else ms.map (fun m => ⟨l.infocode, l.date, some m.security_key⟩))

/-- Whether a grid cell already has a point-in-time fill row, the membership
test `panel.index.isin(fill_values.index)` on the (infocode, date) index. -/
def coveredByFill (fill_values : List FilledRow) (r : GridRow) : Bool :=
  fill_values.any (fun f => decide (f.infocode = r.infocode ∧ f.date = r.date))

/-- `__fill_missing_values`: fill the grid cells without a point-in-time
mapping from the unambiguous current mappings and concatenate with the
point-in-time fill rows. -/
def fillMissingValues (panel : List GridRow) (fill_values : List FilledRow)
    (sq : List MappingRow) : List FilledRow :=
  if (panel.filter (fun r => !coveredByFill fill_values r)).isEmpty then fill_values
  else leftMergeInfocode (panel.filter (fun r => !coveredByFill fill_values r))
    (unambiguousMappings sq) ++ fill_values

/-!
Shared helper lemmas.
-/

theorem traverseOption_cons (f : α → Option β) (a : α) (t : List α) :
    traverseOption f (a :: t) =
      match f a, traverseOption f t with
      | some b, some bs => some (b :: bs)
      | _, _ => none := rfl

theorem traverseOption_append_take (g : List Char → Option Char) (n : Nat) :
    ∀ (l fl : List (List Char)), (∀ s ∈ l, s.length = n) →
      traverseOption (fun i => (g i).map (fun d => i ++ [d])) l = some fl →
      fl.map (List.take n) = l := by
  intro l
  induction l with
  | nil =>
    intro fl _ h
    simp [traverseOption] at h
    subst h
    simp
  | cons a t ih =>
    intro fl hlen h
    rw [traverseOption_cons] at h
    cases hga : (g a).map (fun d => a ++ [d]) with
    | none => rw [hga] at h; exact absurd h (by simp)
    | some b =>
      cases ht : traverseOption (fun i => (g i).map (fun d => i ++ [d])) t with
      | none => rw [hga, ht] at h; exact absurd h (by simp)
      | some bs =>
        rw [hga, ht] at h
        have hfl : fl = b :: bs := by simpa using h.symm
        obtain ⟨d, _, hb⟩ := Option.map_eq_some'.mp hga
        have htake : b.take n = a := by
          rw [← hb, ← hlen a (by simp)]
          exact List.take_left a [d]
        subst hfl
        simp only [List.map_cons, htake]
        rw [ih bs (fun s hs => hlen s (List.mem_cons_of_mem a hs)) ht]

theorem sum_map_div (l : List α) (f : α → ℚ) (c : ℚ) :
    (l.map (fun x => f x / c)).sum = (l.map f).sum / c := by
  induction l with
  | nil => simp
  | cons a t ih => simp [ih, add_div]

theorem sum_map_sub_const (l : List α) (f : α → ℚ) (c : ℚ) :
    (l.map (fun x => f x - c)).sum = (l.map f).sum - (l.length : ℚ) * c := by
  induction l with
  | nil => simp
  | cons a t ih =>
    simp only [List.map_cons, List.sum_cons, ih, List.length_cons]
    push_cast
    ring

/-!
Claim C10: abbreviation inverts full-form conversion for both identifier
schemes.
-/

/-- Claim C10: for every list of 8-character cusip strings, taking the first 8
characters of each element of the output of `cusip_abbrev_to_full` returns the
original list, and likewise for 6-character sedols with
`sedol_abbrev_to_full`: the conversion only appends a single check digit. -/
theorem claim_C10_abbrev_roundtrip (lc ls fc fs : List (List Char))
    (hc : ∀ s ∈ lc, s.length = 8) (hs : ∀ s ∈ ls, s.length = 6)
    (hfc : cusip_abbrev_to_full lc = some fc)
    (hfs : sedol_abbrev_to_full ls = some fs) :
    fc.map securityKeyAbbrevCusip = lc ∧ fs.map securityKeyAbbrevSedol = ls :=
  ⟨traverseOption_append_take cusipCheckDigit 8 lc fc hc hfc,
   traverseOption_append_take sedolCheckDigit 6 ls fs hs hfs⟩

theorem claim_C10_witness :
    (∀ s ∈ [['0','3','7','8','3','3','1','0']], s.length = 8) ∧
    (∀ s ∈ [['0','2','6','3','4','9']], s.length = 6) ∧
    cusip_abbrev_to_full [['0','3','7','8','3','3','1','0']] =
      some [['0','3','7','8','3','3','1','0','0']] ∧
    sedol_abbrev_to_full [['0','2','6','3','4','9']] =
      some [['0','2','6','3','4','9','4']] ∧
    ([['0','3','7','8','3','3','1','0','0']].map securityKeyAbbrevCusip =
      [['0','3','7','8','3','3','1','0']] ∧
     [['0','2','6','3','4','9','4']].map securityKeyAbbrevSedol =
      [['0','2','6','3','4','9']]) :=
  ⟨by decide, by decide, by decide, by decide,
   claim_C10_abbrev_roundtrip _ _ _ _ (by decide) (by decide) (by decide) (by decide)⟩

/-!
Claim C5: weight renormalization makes each date sum to one. This fails on a
date whose pre-normalization weights sum to zero: the date remains in the
output panel, and its renormalized per-date sum is not 1 (pandas produces
`0.0 / 0.0 = NaN` there; the rational model produces 0).
-/

/-- Claim C5, counterexample to the claim as stated: a date whose weights sum
to zero is still present in the renormalized output panel, and there the
per-date sum of `index_weight` is not 1. -/
theorem claim_C5_counterexample :
    ((0 : Int) ∈ (renormalizeWeights [⟨0, 10, 0⟩]).map (·.date)) ∧
    dateWeightSum (renormalizeWeights [⟨0, 10, 0⟩]) 0 ≠ 1 := by
  constructor
  · decide
  · unfold renormalizeWeights dateWeightSum
    norm_num

/-- Claim C5, amended: after the optional weight renormalization of
`get_gic_panel`, for every date present in the output panel whose
pre-normalization weight sum is nonzero, the sum of `index_weight` over that
date equals 1. -/
theorem claim_C5_renormalized_weights (panel : List WeightRow) (d : Int)
    (hd : d ∈ (renormalizeWeights panel).map (·.date))
    (hs : dateWeightSum panel d ≠ 0) :
    dateWeightSum (renormalizeWeights panel) d = 1 := by
  unfold dateWeightSum renormalizeWeights
  rw [List.filter_map]
  have hpred : ((fun r => decide (r.date = d)) ∘
      (fun r => { r with index_weight := r.index_weight / dateWeightSum panel r.date })) =
      (fun (r : WeightRow) => decide (r.date = d)) := by
    funext r; rfl
  rw [hpred, List.map_map]
  have hmap : (panel.filter (fun r => decide (r.date = d))).map
      ((fun r => r.index_weight) ∘
        (fun r => { r with index_weight := r.index_weight / dateWeightSum panel r.date })) =
      (panel.filter (fun r => decide (r.date = d))).map
        (fun r => r.index_weight / dateWeightSum panel d) := by
    apply List.map_congr_left
    intro r hr
    have : r.date = d := by simpa using (List.mem_filter.mp hr).2
    simp [Function.comp, this]
  rw [hmap, sum_map_div]
  exact div_self hs

theorem claim_C5_witness :
    ((0 : Int) ∈ (renormalizeWeights [⟨0, 10, 2⟩, ⟨0, 11, 3⟩]).map (·.date)) ∧
    dateWeightSum [⟨0, 10, 2⟩, ⟨0, 11, 3⟩] 0 ≠ 0 ∧
    dateWeightSum (renormalizeWeights [⟨0, 10, 2⟩, ⟨0, 11, 3⟩]) 0 = 1 :=
  ⟨by decide, by norm_num [dateWeightSum],
   claim_C5_renormalized_weights [⟨0, 10, 2⟩, ⟨0, 11, 3⟩] 0 (by decide)
     (by norm_num [dateWeightSum])⟩

/-!
Claim C4: discrete-step lag nulls. Helper lemmas about `shiftList` counts.
-/

theorem countP_range_lt (A n : Nat) :
    (List.range n).countP (fun i => decide (i < A)) = min A n := by
  induction n with
  | zero => simp
  | succ n ih =>
    rw [List.range_succ, List.countP_append, ih]
    by_cases h : n < A <;> simp [List.countP_cons, h] <;> omega

theorem countP_range_le (T n : Nat) :
    (List.range n).countP (fun i => decide (T ≤ i)) = n - T := by
  induction n with
  | zero => simp
  | succ n ih =>
    rw [List.range_succ, List.countP_append, ih]
    by_cases h : T ≤ n <;> simp [List.countP_cons, h] <;> omega

theorem countP_zip_snd (p : β → Bool) :
    ∀ (l : List α) (l' : List β), l.length = l'.length →
      (l.zip l').countP (fun x => p x.2) = l'.countP p := by
  intro l
  induction l with
  | nil => intro l' h; cases l' <;> simp_all
  | cons a t ih =>
    intro l' h
    cases l' with
    | nil => simp at h
    | cons b t' =>
      simp only [List.zip_cons_cons, List.countP_cons, List.length_cons] at *
      rw [ih t' (by omega)]

theorem shiftList_length (lag : Int) (xs : List α) :
    (shiftList lag xs).length = xs.length := by
  unfold shiftList
  rw [List.length_map, List.length_range]

theorem shiftList_countP_pos (lag : Int) (hl : 0 < lag) (xs : List α) :
    (shiftList lag xs).countP Option.isNone = min lag.natAbs xs.length := by
  unfold shiftList
  rw [List.countP_map]
  have hcong : ∀ i ∈ List.range xs.length,
      (Option.isNone ∘ fun (i : Nat) =>
        if 0 ≤ (i : Int) - lag then xs.get? ((i : Int) - lag).toNat else none) i =
      decide (i < lag.natAbs) := by
    intro i hi
    have hi' : i < xs.length := List.mem_range.mp hi
    by_cases hneg : 0 ≤ (i : Int) - lag
    · have hidx : ((i : Int) - lag).toNat < xs.length := by omega
      simp only [Function.comp, if_pos hneg, List.get?_eq_get hidx, Option.isNone_some]
      symm
      simp only [decide_eq_false_iff_not]
      omega
    · simp only [Function.comp, if_neg hneg, Option.isNone_none]
      symm
      simp only [decide_eq_true_eq]
      omega
  rw [List.countP_congr (fun x hx => by rw [hcong x hx]), countP_range_lt]

theorem shiftList_countP_neg (lag : Int) (hl : lag < 0) (xs : List α) :
    (shiftList lag xs).countP Option.isNone = min lag.natAbs xs.length := by
  unfold shiftList
  rw [List.countP_map]
  have hcong : ∀ i ∈ List.range xs.length,
      (Option.isNone ∘ fun (i : Nat) =>
        if 0 ≤ (i : Int) - lag then xs.get? ((i : Int) - lag).toNat else none) i =
      decide (xs.length - lag.natAbs ≤ i) := by
    intro i hi
    have hi' : i < xs.length := List.mem_range.mp hi
    have hneg : 0 ≤ (i : Int) - lag := by omega
    by_cases hidx : ((i : Int) - lag).toNat < xs.length
    · simp only [Function.comp, if_pos hneg, List.get?_eq_get hidx, Option.isNone_some]
      symm
      simp only [decide_eq_false_iff_not]
      omega
    · simp only [Function.comp, if_pos hneg, List.get?_eq_none.mpr (by omega : xs.length ≤ ((i : Int) - lag).toNat), Option.isNone_none]
      symm
      simp only [decide_eq_true_eq]
      omega
  rw [List.countP_congr (fun x hx => by rw [hcong x hx]), countP_range_le]
  omega

theorem shiftList_get? (lag : Int) (xs : List α) (i : Nat) (hi : i < xs.length) :
    (shiftList lag xs).get? i =
      some (if 0 ≤ (i : Int) - lag then xs.get? ((i : Int) - lag).toNat else none) := by
  have h1 : i < (shiftList lag xs).length := by rw [shiftList_length]; exact hi
  rw [List.get?_eq_get h1]
  simp only [List.get_eq_getElem, shiftList, List.getElem_map, List.getElem_range]

/-- Claim C4, counterexample to the claim as stated: a key group with a single
row lagged by 2 produces one null row, not `|2| = 2` of them. -/
theorem claim_C4_counterexample :
    (laggedGroup [⟨0, 0, 5⟩] 0 2).countP (fun p => p.2.isNone) = 1 ∧
    (1 : Nat) ≠ (2 : Int).natAbs := by decide

/-- Claim C4, amended: for every panel and nonzero lag `n`, the lag operation
shifts the feature by `n` positions within each key group after sorting by
date, and exactly `min |n| (group size)` rows per key group become null,
located at the group boundary matching the lag direction: the first rows for
positive `n`, the last rows for negative `n`. -/
theorem claim_C4_lag_nulls (panel : List LagRow) (k : Int) (lag : Int) (hlag : lag ≠ 0) :
    (laggedGroup panel k lag).countP (fun p => p.2.isNone) =
      min lag.natAbs (sortedGroup panel k).length ∧
    (∀ i, ∀ h : i < (laggedGroup panel k lag).length,
      (((laggedGroup panel k lag).get ⟨i, h⟩).2 = none ↔
        (if 0 < lag then i < min lag.natAbs (sortedGroup panel k).length
         else (sortedGroup panel k).length - min lag.natAbs (sortedGroup panel k).length ≤ i))) := by
  have hxs : ((sortedGroup panel k).map (·.value)).length = (sortedGroup panel k).length :=
    List.length_map _ _
  have hsl : (shiftList lag ((sortedGroup panel k).map (·.value))).length =
      (sortedGroup panel k).length := by rw [shiftList_length, hxs]
  constructor
  · unfold laggedGroup
    rw [countP_zip_snd Option.isNone _ _ hsl.symm]
    rcases lt_or_gt_of_ne hlag with h | h
    · rw [shiftList_countP_neg lag h, hxs]
    · rw [shiftList_countP_pos lag h, hxs]
  · intro i h
    have hzl : (laggedGroup panel k lag).length = (sortedGroup panel k).length := by
      unfold laggedGroup
      rw [List.length_zip, hsl]
      omega
    have hig : i < (sortedGroup panel k).length := by omega
    have hig' : i < ((sortedGroup panel k).map (·.value)).length := by omega
    have hsh : i < (shiftList lag ((sortedGroup panel k).map (·.value))).length := by omega
    have hget : ((laggedGroup panel k lag).get ⟨i, h⟩).2 =
        (shiftList lag ((sortedGroup panel k).map (·.value))).get ⟨i, hsh⟩ := by
      unfold laggedGroup
      simp [List.get_eq_getElem, List.getElem_zip]
    have hval : (shiftList lag ((sortedGroup panel k).map (·.value))).get ⟨i, hsh⟩ =
        (if 0 ≤ (i : Int) - lag
         then ((sortedGroup panel k).map (·.value)).get? ((i : Int) - lag).toNat else none) := by
      have h2 := shiftList_get? lag ((sortedGroup panel k).map (·.value)) i hig'
      rw [List.get?_eq_get hsh] at h2
      exact Option.some.inj h2
    rw [hget, hval]
    by_cases hl : 0 < lag
    · rw [if_pos hl]
      by_cases hneg : 0 ≤ (i : Int) - lag
      · rw [if_pos hneg]
        by_cases hidx : ((i : Int) - lag).toNat < ((sortedGroup panel k).map (·.value)).length
        · rw [List.get?_eq_get hidx]
          simp only [reduceCtorEq, false_iff]
          omega
        · exfalso
          omega
      · rw [if_neg hneg]
        simp only [true_iff]
        omega
    · rw [if_neg hl]
      have hlneg : lag < 0 := by omega
      have hneg : 0 ≤ (i : Int) - lag := by omega
      rw [if_pos hneg]
      by_cases hidx : ((i : Int) - lag).toNat < ((sortedGroup panel k).map (·.value)).length
      · rw [List.get?_eq_get hidx]
        simp only [reduceCtorEq, false_iff]
        omega
      · rw [List.get?_eq_none.mpr (by omega)]
        simp only [true_iff]
        omega

theorem claim_C4_witness :
    (1 : Int) ≠ 0 ∧
    (laggedGroup [⟨0, 0, 5⟩, ⟨0, 1, 6⟩] 0 1).countP (fun p => p.2.isNone) =
      min (1 : Int).natAbs (sortedGroup [⟨0, 0, 5⟩, ⟨0, 1, 6⟩] 0).length :=
  ⟨by decide, (claim_C4_lag_nulls [⟨0, 0, 5⟩, ⟨0, 1, 6⟩] 0 1 (by decide)).1⟩

/-!
Claim C1: the walk-forward date generator.
-/

theorem emitAt_isSome_iff (dates : List Int) (p b : Nat) (lookback : Int) (i : Nat) :
    (emitAt dates p b lookback i).isSome = true ↔
      (b ≤ i ∧ i + p < dates.length ∧ p ≤ i ∧ dates.getD 0 0 < dates.getD i 0) := by
  unfold emitAt
  cases hg : dates.get? i with
  | none =>
    have hlen : dates.length ≤ i := List.get?_eq_none.mp hg
    simp only [Option.isSome_none, Bool.false_eq_true, false_iff]
    intro hcontra
    omega
  | some d =>
    have hlt : i < dates.length := by
      by_contra hcontra
      rw [List.get?_eq_none.mpr (by omega)] at hg
      exact absurd hg (by simp)
    have hd : dates.getD i 0 = d := by
      rw [List.getD_eq_get?, hg]
      rfl
    rw [hd]
    dsimp only
    by_cases h1 : b ≤ i ∧ i + p < dates.length ∧ p ≤ i
    · rw [if_pos h1]
      by_cases h2 : dates.getD 0 0 < d
      · rw [if_pos h2]
        exact iff_of_true (by simp) ⟨h1.1, h1.2.1, h1.2.2, h2⟩
      · rw [if_neg h2]
        exact iff_of_false (by simp) (fun hc => h2 hc.2.2.2)
    · rw [if_neg h1]
      exact iff_of_false (by simp) (fun hc => h1 ⟨hc.1, hc.2.1, hc.2.2.1⟩)

theorem getD_eq_get_of_lt (dates : List Int) (i : Nat) (h : i < dates.length) :
    dates.getD i 0 = dates.get ⟨i, h⟩ := by
  rw [List.getD_eq_get?, List.get?_eq_get h]
  rfl

/-- Claim C1: `generate_dates` emits a window for 0-based index `i` over the
sorted distinct dates iff `i >= burn_in_steps`, `i + prediction_steps <
len(dates)`, `i - prediction_steps >= 0` and `present_date > dates[0]`; for 9
distinct dates with `prediction_steps = 1` and `burn_in_steps = 0` the windows
are emitted exactly for `i = 1 .. 7`; and every emitted window has
`present_date == past_end` and, for positive prediction steps, `past_end <
future_date` strictly. -/
theorem claim_C1_generate_dates (dates : List Int) (p b : Nat) (lookback : Int)
    (hsort : List.Sorted (· < ·) dates) :
    (∀ i, (emitAt dates p b lookback i).isSome = true ↔
      (b ≤ i ∧ i + p < dates.length ∧ p ≤ i ∧ dates.getD 0 0 < dates.getD i 0)) ∧
    (dates.length = 9 → p = 1 → b = 0 →
      ∀ i, (emitAt dates p b lookback i).isSome = true ↔ (1 ≤ i ∧ i ≤ 7)) ∧
    (∀ w ∈ generate_dates dates p b lookback,
      w.present_date = w.past_end ∧ (0 < p → w.past_end < w.future_date)) := by
  refine ⟨emitAt_isSome_iff dates p b lookback, ?_, ?_⟩
  · intro hlen hp hb i
    rw [emitAt_isSome_iff]
    subst hp hb
    constructor
    · intro ⟨_, h2, h3, _⟩
      omega
    · intro ⟨h1, h2⟩
      have hi : i < dates.length := by omega
      have h0 : (0 : Nat) < dates.length := by omega
      refine ⟨by omega, by omega, by omega, ?_⟩
      rw [getD_eq_get_of_lt dates i hi, getD_eq_get_of_lt dates 0 h0]
      exact hsort.get_strictMono (show (⟨0, h0⟩ : Fin dates.length) < ⟨i, hi⟩ by
        simp [Fin.lt_def]; omega)
  · intro w hw
    obtain ⟨i, hi, hemit⟩ := List.mem_filterMap.mp hw
    unfold emitAt at hemit
    cases hg : dates.get? i with
    | none => rw [hg] at hemit; exact absurd hemit (by simp)
    | some d =>
      rw [hg] at hemit
      dsimp only at hemit
      by_cases h1 : b ≤ i ∧ i + p < dates.length ∧ p ≤ i
      · rw [if_pos h1] at hemit
        by_cases h2 : dates.getD 0 0 < d
        · rw [if_pos h2] at hemit
          have hwd : w = DateInfo.mk d (d - lookback) d (dates.getD (i + p) 0) :=
            (Option.some.inj hemit).symm
          subst hwd
          refine ⟨rfl, fun hp => ?_⟩
          have hilt : i < dates.length := by omega
          have hiplt : i + p < dates.length := h1.2.1
          have hdi : d = dates.get ⟨i, hilt⟩ := by
            rw [List.get?_eq_get hilt] at hg
            exact (Option.some.inj hg).symm
          simp only []
          rw [hdi, getD_eq_get_of_lt dates (i + p) hiplt]
          exact hsort.get_strictMono (show (⟨i, hilt⟩ : Fin dates.length) < ⟨i + p, hiplt⟩ by
            simp [Fin.lt_def]; omega)
        · rw [if_neg h2] at hemit; exact absurd hemit (by simp)
      · rw [if_neg h1] at hemit; exact absurd hemit (by simp)

theorem claim_C1_witness :
    List.Sorted (· < ·) [0, 1, 2, 3, 4, 5, 6, 7, 8] ∧
    ((emitAt [0, 1, 2, 3, 4, 5, 6, 7, 8] 1 0 100 3).isSome = true ↔ (1 ≤ 3 ∧ 3 ≤ 7)) :=
  ⟨by decide,
   (claim_C1_generate_dates [0, 1, 2, 3, 4, 5, 6, 7, 8] 1 0 100 (by decide)).2.1
     rfl rfl rfl 3⟩

/-!
Claim C3: asof merge semantics. Helper lemmas about last elements of sorted
filtered lists.
-/

theorem mem_of_getLast?_eq (l : List α) (a : α) (h : l.getLast? = some a) : a ∈ l := by
  cases l with
  | nil => simp at h
  | cons b t =>
    have hne : (b :: t) ≠ [] := by simp
    rw [List.getLast?_eq_getLast _ hne] at h
    exact (Option.some.inj h) ▸ List.getLast_mem hne

theorem rel_of_sorted_getLast? {r : α → α → Prop} :
    ∀ (l : List α), List.Sorted r l → ∀ y, l.getLast? = some y → ∀ x ∈ l, x = y ∨ r x y := by
  intro l
  induction l with
  | nil => intro _ y hy; simp at hy
  | cons a t ih =>
    intro hs y hy x hx
    cases t with
    | nil =>
      have hya : y = a := by simpa using hy.symm
      have hxa : x = a := by simpa using hx
      subst hya
      exact Or.inl hxa
    | cons b t2 =>
      have hy2 : (b :: t2).getLast? = some y := by
        simpa [List.getLast?_cons_cons] using hy
      rcases List.mem_cons.mp hx with hxa | hxt
      · subst hxa
        exact Or.inr (List.rel_of_sorted_cons hs y (mem_of_getLast?_eq _ _ hy2))
      · exact ih hs.of_cons y hy2 x hxt

theorem asofMatch_some_spec (feature : List FeatureRow) (k t : Int) (e : Bool)
    (f : FeatureRow) (h : asofMatch feature k t e = some f) :
    f ∈ feature ∧ f.key = k ∧ (if e then f.date ≤ t else f.date < t) ∧
      (∀ g ∈ feature, g.key = k → (if e then g.date ≤ t else g.date < t) →
        g.date ≤ f.date) := by
  unfold asofMatch at h
  have hsorted : List.Sorted featureDateLe (List.insertionSort featureDateLe feature) :=
    List.sorted_insertionSort featureDateLe feature
  have hfsorted : List.Sorted featureDateLe
      ((List.insertionSort featureDateLe feature).filter (asofEligible e t k)) :=
    List.Pairwise.sublist (List.filter_sublist _) hsorted
  have hmemf := mem_of_getLast?_eq _ _ h
  have hf_s := (List.mem_filter.mp hmemf).1
  have hf_mem : f ∈ feature :=
    (List.perm_insertionSort featureDateLe feature).mem_iff.mp hf_s
  have helig : f.key = k ∧ (if e then f.date ≤ t else f.date < t) := by
    have := (List.mem_filter.mp hmemf).2
    unfold asofEligible at this
    exact of_decide_eq_true this
  refine ⟨hf_mem, helig.1, helig.2, ?_⟩
  intro g hg hgk hgd
  have hg_s : g ∈ List.insertionSort featureDateLe feature :=
    (List.perm_insertionSort featureDateLe feature).mem_iff.mpr hg
  have hg_f : g ∈ (List.insertionSort featureDateLe feature).filter (asofEligible e t k) := by
    refine List.mem_filter.mpr ⟨hg_s, ?_⟩
    unfold asofEligible
    exact decide_eq_true ⟨hgk, hgd⟩
  rcases rel_of_sorted_getLast? _ hfsorted f h g hg_f with heq | hrel
  · exact heq ▸ le_refl _
  · exact hrel

theorem asofMatch_none_spec (feature : List FeatureRow) (k t : Int) (e : Bool)
    (h : asofMatch feature k t e = none) :
    ∀ g ∈ feature, ¬(g.key = k ∧ (if e then g.date ≤ t else g.date < t)) := by
  intro g hg hcond
  unfold asofMatch at h
  have hg_s : g ∈ List.insertionSort featureDateLe feature :=
    (List.perm_insertionSort featureDateLe feature).mem_iff.mpr hg
  have hg_f : g ∈ (List.insertionSort featureDateLe feature).filter (asofEligible e t k) := by
    refine List.mem_filter.mpr ⟨hg_s, ?_⟩
    unfold asofEligible
    exact decide_eq_true hcond
  have hne := List.ne_nil_of_mem hg_f
  have := List.getLast?_isSome.mpr hne
  rw [h] at this
  exact absurd this (by simp)

/-- Claim C3: with `exact_match_allowed = False` the asof merge attaches to a
panel row only feature rows with strictly earlier time values (never an equal
date); with `exact_match_allowed = True` it attaches the most recent feature
row of the matching group with time value at most the panel time value, and
attaches nothing only when no such row exists. -/
theorem claim_C3_asof_merge (panel : List PanelRow) (feature : List FeatureRow) :
    (∀ pr ∈ asofMergeFeature panel feature false, ∀ f, pr.2 = some f →
      f.key = pr.1.key ∧ f.date < pr.1.date) ∧
    (∀ pr ∈ asofMergeFeature panel feature true, ∀ f, pr.2 = some f →
      f ∈ feature ∧ f.key = pr.1.key ∧ f.date ≤ pr.1.date ∧
      ∀ g ∈ feature, g.key = pr.1.key → g.date ≤ pr.1.date → g.date ≤ f.date) ∧
    (∀ pr ∈ asofMergeFeature panel feature true, pr.2 = none →
      ∀ g ∈ feature, ¬(g.key = pr.1.key ∧ g.date ≤ pr.1.date)) := by
  refine ⟨?_, ?_, ?_⟩
  · intro pr hpr f hf
    obtain ⟨q, _, rfl⟩ := List.mem_map.mp hpr
    have hmatch : asofMatch feature q.key q.date false = some f := hf
    have hspec := asofMatch_some_spec feature q.key q.date false f hmatch
    refine ⟨hspec.2.1, ?_⟩
    have := hspec.2.2.1
    simpa using this
  · intro pr hpr f hf
    obtain ⟨q, _, rfl⟩ := List.mem_map.mp hpr
    have hmatch : asofMatch feature q.key q.date true = some f := hf
    have hspec := asofMatch_some_spec feature q.key q.date true f hmatch
    refine ⟨hspec.1, hspec.2.1, by simpa using hspec.2.2.1, ?_⟩
    intro g hg hgk hgd
    exact hspec.2.2.2 g hg hgk (by simpa using hgd)
  · intro pr hpr hnone g hg hcond
    obtain ⟨q, _, rfl⟩ := List.mem_map.mp hpr
    have hmatch : asofMatch feature q.key q.date true = none := hnone
    exact asofMatch_none_spec feature q.key q.date true hmatch g hg
      ⟨hcond.1, by simpa using hcond.2⟩

theorem claim_C3_witness :
    ((⟨0, 5⟩, some (⟨0, 4, 8⟩ : FeatureRow)) ∈
      asofMergeFeature [⟨0, 5⟩] [⟨0, 3, 7⟩, ⟨0, 4, 8⟩] true) ∧
    ((⟨0, 4, 8⟩ : FeatureRow) ∈ [(⟨0, 3, 7⟩ : FeatureRow), ⟨0, 4, 8⟩] ∧
     (⟨0, 4, 8⟩ : FeatureRow).key = (⟨0, 5⟩ : PanelRow).key ∧
     (⟨0, 4, 8⟩ : FeatureRow).date ≤ (⟨0, 5⟩ : PanelRow).date ∧
     ∀ g ∈ [(⟨0, 3, 7⟩ : FeatureRow), ⟨0, 4, 8⟩], g.key = (⟨0, 5⟩ : PanelRow).key →
       g.date ≤ (⟨0, 5⟩ : PanelRow).date → g.date ≤ (⟨0, 4, 8⟩ : FeatureRow).date) :=
  ⟨by decide,
   (claim_C3_asof_merge [⟨0, 5⟩] [⟨0, 3, 7⟩, ⟨0, 4, 8⟩]).2.1
     (⟨0, 5⟩, some ⟨0, 4, 8⟩) (by decide) ⟨0, 4, 8⟩ rfl⟩

/-!
Claim C6: mean-centering by the in-universe group mean.
-/

theorem meanCenter_filter (panel : List UniverseRow) (k d : Int) :
    (meanCenter panel).filter (inUniverseAt k d) =
      (panel.filter (inUniverseAt k d)).map
        (fun r => { r with value := r.value - inUniverseMean panel r.key r.date }) := by
  unfold meanCenter
  rw [List.filter_map]
  have hpc : (inUniverseAt k d ∘ fun (r : UniverseRow) =>
      { r with value := r.value - inUniverseMean panel r.key r.date }) =
      inUniverseAt k d := rfl
  rw [hpc, List.filter_filter]
  congr 1
  apply List.filter_congr
  intro r hr
  by_cases hp : inUniverseAt k d r = true
  · have hconds := of_decide_eq_true hp
    have hq : hasInUniverse panel r.key r.date = true := by
      unfold hasInUniverse
      refine List.any_eq_true.mpr ⟨r, hr, ?_⟩
      unfold inUniverseAt
      exact decide_eq_true ⟨rfl, rfl, hconds.2.2⟩
    rw [hp, hq]
    rfl
  · rw [Bool.not_eq_true] at hp
    rw [hp]
    simp

theorem meanCenter_in_universe_sum (panel : List UniverseRow) (k d : Int)
    (hex : ∃ r ∈ panel, inUniverseAt k d r = true) :
    (((meanCenter panel).filter (inUniverseAt k d)).map (·.value)).sum = 0 := by
  rw [meanCenter_filter, List.map_map]
  have hmc : (panel.filter (inUniverseAt k d)).map ((fun (r : UniverseRow) => r.value) ∘
      (fun r => { r with value := r.value - inUniverseMean panel r.key r.date })) =
      (panel.filter (inUniverseAt k d)).map
        (fun r => r.value - inUniverseMean panel k d) := by
    apply List.map_congr_left
    intro r hr
    have hconds := of_decide_eq_true (List.mem_filter.mp hr).2
    simp only [Function.comp]
    rw [hconds.1, hconds.2.1]
  rw [hmc, sum_map_sub_const]
  obtain ⟨r0, hr0, hr0u⟩ := hex
  have hne : panel.filter (inUniverseAt k d) ≠ [] :=
    List.ne_nil_of_mem (List.mem_filter.mpr ⟨hr0, hr0u⟩)
  have hlen : ((panel.filter (inUniverseAt k d)).length : ℚ) ≠ 0 := by
    have hpos := List.length_pos.mpr hne
    exact_mod_cast Nat.pos_iff_ne_zero.mp hpos
  unfold inUniverseMean
  rw [mul_comm, div_mul_cancel₀ _ hlen, sub_eq_zero]

/-- Claim C6: for every group key and date owning at least one in-universe
row, `_mean_center` subtracts from each row of the group the mean computed
over only that group in-universe rows (the same in-universe mean for
in-universe and out-of-universe rows), and after centering the in-universe
mean of the feature at the group is 0. -/
theorem claim_C6_mean_center (panel : List UniverseRow) (k d : Int)
    (hex : ∃ r ∈ panel, inUniverseAt k d r = true) :
    inUniverseMean (meanCenter panel) k d = 0 ∧
    (∀ r ∈ panel, hasInUniverse panel r.key r.date = true →
      UniverseRow.mk r.key r.date r.in_index
        (r.value - inUniverseMean panel r.key r.date) ∈ meanCenter panel) := by
  constructor
  · unfold inUniverseMean
    rw [meanCenter_in_universe_sum panel k d hex, zero_div]
  · intro r hr hq
    unfold meanCenter
    exact List.mem_map.mpr ⟨r, List.mem_filter.mpr ⟨hr, hq⟩, rfl⟩

theorem claim_C6_witness :
    (∃ r ∈ [(⟨1, 1, 1, 2⟩ : UniverseRow), ⟨1, 1, 1, 4⟩], inUniverseAt 1 1 r = true) ∧
    inUniverseMean (meanCenter [(⟨1, 1, 1, 2⟩ : UniverseRow), ⟨1, 1, 1, 4⟩]) 1 1 = 0 :=
  ⟨by decide, (claim_C6_mean_center [⟨1, 1, 1, 2⟩, ⟨1, 1, 1, 4⟩] 1 1 (by decide)).1⟩

/-!
Claim C2: duplicate membership resolution prefers `in_index == 1` rows.
-/

theorem head?_mem (l : List β) (a : β) (h : l.head? = some a) : a ∈ l := by
  cases l with
  | nil => simp at h
  | cons b t =>
    have hba : b = a := by simpa using h
    rw [← hba]
    exact List.mem_cons_self b t

theorem countP_filterMap_le_count {κ β : Type} [DecidableEq κ]
    (g : κ → Option β) (P : β → Bool) (k0 : κ)
    (hg : ∀ k r, g k = some r → (P r = true ↔ k = k0)) :
    ∀ l : List κ, (l.filterMap g).countP P ≤ l.count k0 := by
  intro l
  induction l with
  | nil => simp
  | cons a t ih =>
    rw [List.filterMap_cons, List.count_cons]
    cases hga : g a with
    | none => exact le_trans ih (by omega)
    | some r =>
      rw [List.countP_cons]
      by_cases hPr : P r = true
      · have hak : a = k0 := (hg a r hga).mp hPr
        rw [if_pos hPr, if_pos (by exact beq_iff_eq.mpr hak)]
        exact Nat.add_le_add ih (le_refl 1)
      · rw [if_neg hPr]
        exact le_trans (by omega) (Nat.add_le_add ih (Nat.zero_le _))

theorem resolved_row_mem_group (panel : List MembershipRow) (k : Int × Int)
    (r : MembershipRow)
    (h : (List.insertionSort inIndexGe (keyGroup panel k)).head? = some r) :
    r ∈ keyGroup panel k :=
  (List.perm_insertionSort inIndexGe (keyGroup panel k)).mem_iff.mp (head?_mem _ _ h)

/-- Claim C2: during membership reconstruction, for every (entity, date) pair
with more than one membership row, the single retained row has
`in_index == 1` whenever any candidate row for the pair has `in_index == 1`,
and at most one row per pair is retained. -/
theorem claim_C2_duplicate_resolution (panel : List MembershipRow) (ic d : Int)
    (hb : ∀ r ∈ panel, r.in_index ≤ 1)
    (hdup : 1 < (keyGroup panel (ic, d)).length) :
    (∀ r ∈ resolveDuplicates panel, r.infocode = ic → r.date = d →
      (∃ c ∈ panel, c.infocode = ic ∧ c.date = d ∧ c.in_index = 1) → r.in_index = 1) ∧
    (resolveDuplicates panel).countP
      (fun r => decide (r.infocode = ic ∧ r.date = d)) ≤ 1 := by
  constructor
  · intro r hr hric hrd hex
    obtain ⟨k, _, hhead⟩ := List.mem_filterMap.mp hr
    have hsorted : List.Sorted inIndexGe (List.insertionSort inIndexGe (keyGroup panel k)) :=
      List.sorted_insertionSort _ _
    have hrk : r ∈ keyGroup panel k := resolved_row_mem_group panel k r hhead
    have hfields := of_decide_eq_true (List.mem_filter.mp hrk).2
    have hkk : k = (ic, d) := by
      cases k with
      | mk k1 k2 =>
        simp only [] at hfields
        rw [Prod.mk.injEq]
        exact ⟨hfields.1 ▸ hric.symm ▸ rfl, hfields.2 ▸ hrd.symm ▸ rfl⟩
    obtain ⟨c, hc_mem, hc1, hc2, hc3⟩ := hex
    have hc_grp : c ∈ keyGroup panel k := by
      rw [hkk]
      exact List.mem_filter.mpr ⟨hc_mem, decide_eq_true ⟨hc1, hc2⟩⟩
    have hc_s : c ∈ List.insertionSort inIndexGe (keyGroup panel k) :=
      (List.perm_insertionSort inIndexGe (keyGroup panel k)).mem_iff.mpr hc_grp
    cases hsl : List.insertionSort inIndexGe (keyGroup panel k) with
    | nil => rw [hsl] at hhead; simp at hhead
    | cons h0 t =>
      rw [hsl] at hhead hc_s
      have hh0 : h0 = r := by simpa using hhead
      subst hh0
      rcases List.mem_cons.mp hc_s with hceq | hct
      · rw [hceq] at hc3
        exact hc3
      · have hrel : inIndexGe h0 c := List.rel_of_sorted_cons (hsl ▸ hsorted) c hct
        have hrin : h0 ∈ panel := (List.mem_filter.mp hrk).1
        have hble := hb h0 hrin
        unfold inIndexGe at hrel
        omega
  · have hg : ∀ (k : Int × Int) (r : MembershipRow),
        (List.insertionSort inIndexGe (keyGroup panel k)).head? = some r →
        ((fun r => decide (r.infocode = ic ∧ r.date = d)) r = true ↔ k = (ic, d)) := by
      intro k r hk
      have hrk := resolved_row_mem_group panel k r hk
      have hfields := of_decide_eq_true (List.mem_filter.mp hrk).2
      constructor
      · intro hP
        have hP2 := of_decide_eq_true hP
        cases k with
        | mk k1 k2 =>
          simp only [] at hfields
          rw [Prod.mk.injEq]
          exact ⟨hfields.1 ▸ hP2.1.symm ▸ rfl, hfields.2 ▸ hP2.2.symm ▸ rfl⟩
      · intro hkk
        subst hkk
        exact decide_eq_true ⟨hfields.1, hfields.2⟩
    have hcount := countP_filterMap_le_count
      (fun k => (List.insertionSort inIndexGe (keyGroup panel k)).head?)
      (fun r => decide (r.infocode = ic ∧ r.date = d)) ((ic, d) : Int × Int)
      hg (membershipKeys panel)
    exact le_trans hcount
      (List.nodup_iff_count_le_one.mp (List.nodup_dedup _) ((ic, d) : Int × Int))

theorem claim_C2_witness :
    (∀ r ∈ [(⟨1, 1, 0, 7⟩ : MembershipRow), ⟨1, 1, 1, 8⟩], r.in_index ≤ 1) ∧
    1 < (keyGroup [(⟨1, 1, 0, 7⟩ : MembershipRow), ⟨1, 1, 1, 8⟩] (1, 1)).length ∧
    (⟨1, 1, 1, 8⟩ : MembershipRow) ∈
      resolveDuplicates [(⟨1, 1, 0, 7⟩ : MembershipRow), ⟨1, 1, 1, 8⟩] ∧
    (⟨1, 1, 1, 8⟩ : MembershipRow).in_index = 1 :=
  ⟨by decide, by decide, by decide,
   (claim_C2_duplicate_resolution [⟨1, 1, 0, 7⟩, ⟨1, 1, 1, 8⟩] 1 1
      (by decide) (by decide)).1 ⟨1, 1, 1, 8⟩ (by decide) rfl rfl (by decide)⟩

/-!
Claim C8: ranking. pandas defaults to average-rank tie-breaking, truncated by
the integer cast, so the claim about ordinal tie-breaking fails on ties.
-/

theorem ratFloor_eq_intCast (m : Int) : Rat.floor ((m : ℚ)) = m := by
  have h1 : m ≤ Rat.floor ((m : ℚ)) := Rat.le_floor.mpr (le_refl _)
  have h2 : ¬ (m + 1 ≤ Rat.floor ((m : ℚ))) := by
    intro h
    have hc := Rat.le_floor.mp h
    push_cast at hc
    linarith
  omega

theorem ratFloor_eq_of (z : Int) (q : ℚ) (h1 : (z : ℚ) ≤ q) (h2 : q < (z : ℚ) + 1) :
    Rat.floor q = z := by
  have ha : z ≤ Rat.floor q := Rat.le_floor.mpr h1
  have hb : ¬ (z + 1 ≤ Rat.floor q) := by
    intro h
    have hc := Rat.le_floor.mp h
    push_cast at hc
    linarith
  omega

theorem countP_add_countP_le_length (l : List α) (p q : α → Bool)
    (hdisj : ∀ a ∈ l, ¬(p a = true ∧ q a = true)) :
    l.countP p + l.countP q ≤ l.length := by
  induction l with
  | nil => simp
  | cons a t ih =>
    rw [List.countP_cons, List.countP_cons, List.length_cons]
    have hih := ih (fun x hx => hdisj x (List.mem_cons_of_mem a hx))
    have hna := hdisj a (List.mem_cons_self a t)
    by_cases hp : p a = true
    · have hq : ¬ q a = true := fun hq => hna ⟨hp, hq⟩
      rw [if_pos hp, if_neg hq]
      omega
    · rw [if_neg hp]
      by_cases hq : q a = true
      · rw [if_pos hq]
        omega
      · rw [if_neg hq]
        omega

theorem countP_self_eq_one (l : List ℚ) (x : ℚ) (hnd : l.Nodup) (hx : x ∈ l) :
    l.countP (fun y => decide (y = x)) = 1 := by
  induction l with
  | nil => simp at hx
  | cons a t ih =>
    rw [List.countP_cons]
    rcases List.mem_cons.mp hx with hax | hxt
    · rw [if_pos (decide_eq_true hax.symm)]
      have hnotin : x ∉ t := hax ▸ (List.nodup_cons.mp hnd).1
      have hz : t.countP (fun y => decide (y = x)) = 0 :=
        List.countP_eq_zero.mpr (fun b hb hbx =>
          hnotin ((of_decide_eq_true hbx) ▸ hb))
      rw [hz]
    · have hax : ¬ (a = x) := fun h => (List.nodup_cons.mp hnd).1 (h ▸ hxt)
      rw [if_neg (by simpa using hax), ih (List.nodup_cons.mp hnd).2 hxt]

theorem exists_min_rat : ∀ (xs : List ℚ), xs ≠ [] → ∃ x ∈ xs, ∀ y ∈ xs, ¬ y < x := by
  intro xs
  induction xs with
  | nil => intro h; simp at h
  | cons a t ih =>
    intro _
    cases t with
    | nil =>
      refine ⟨a, by simp, ?_⟩
      intro y hy
      have hya : y = a := by simpa using hy
      subst hya
      exact lt_irrefl y
    | cons b t2 =>
      obtain ⟨m, hm, hmin⟩ := ih (by simp)
      by_cases ham : a ≤ m
      · refine ⟨a, by simp, ?_⟩
        intro y hy
        rcases List.mem_cons.mp hy with rfl | hyt
        · exact lt_irrefl y
        · exact fun hya => hmin y hyt (lt_of_lt_of_le hya ham)
      · refine ⟨m, List.mem_cons_of_mem a hm, ?_⟩
        intro y hy
        rcases List.mem_cons.mp hy with rfl | hyt
        · exact fun hm2 => ham (le_of_lt hm2)
        · exact hmin y hyt

theorem exists_max_rat : ∀ (xs : List ℚ), xs ≠ [] → ∃ x ∈ xs, ∀ y ∈ xs, ¬ x < y := by
  intro xs
  induction xs with
  | nil => intro h; simp at h
  | cons a t ih =>
    intro _
    cases t with
    | nil =>
      refine ⟨a, by simp, ?_⟩
      intro y hy
      have hya : y = a := by simpa using hy
      subst hya
      exact lt_irrefl y
    | cons b t2 =>
      obtain ⟨m, hm, hmax⟩ := ih (by simp)
      by_cases ham : m ≤ a
      · refine ⟨a, by simp, ?_⟩
        intro y hy
        rcases List.mem_cons.mp hy with rfl | hyt
        · exact lt_irrefl y
        · exact fun hya => hmax y hyt (lt_of_le_of_lt ham hya)
      · refine ⟨m, List.mem_cons_of_mem a hm, ?_⟩
        intro y hy
        rcases List.mem_cons.mp hy with rfl | hyt
        · exact fun hm2 => ham (le_of_lt hm2)
        · exact hmax y hyt

theorem rankValue_ge_one (ascending : Bool) (xs : List ℚ) (x : ℚ) (hx : x ∈ xs) :
    1 ≤ rankValue ascending xs x := by
  unfold rankValue
  apply Rat.le_floor.mpr
  have hcEq : 1 ≤ xs.countP (fun y => decide (y = x)) := by
    have hpos : 0 < xs.countP (fun y => decide (y = x)) :=
      List.countP_pos.mpr ⟨x, hx, decide_eq_true rfl⟩
    omega
  have h1 : (1 : ℚ) ≤ (xs.countP (fun y => decide (y = x)) : ℚ) := by exact_mod_cast hcEq
  have h2 : (0 : ℚ) ≤
      (xs.countP (fun y => decide (if ascending then y < x else x < y)) : ℚ) :=
    Nat.cast_nonneg _
  push_cast
  linarith

theorem rankValue_le_length (ascending : Bool) (xs : List ℚ) (x : ℚ) (hx : x ∈ xs) :
    rankValue ascending xs x ≤ (xs.length : Int) := by
  have hdisj : ∀ a ∈ xs, ¬((fun y => decide (if ascending then y < x else x < y)) a = true ∧
      (fun y => decide (y = x)) a = true) := by
    intro a _ ⟨h1, h2⟩
    have h1p := of_decide_eq_true h1
    have h2p := of_decide_eq_true h2
    subst h2p
    cases ascending <;> simp at h1p <;> exact lt_irrefl a h1p
  have hsum := countP_add_countP_le_length xs _ _ hdisj
  have hcEq : 1 ≤ xs.countP (fun y => decide (y = x)) := by
    have hpos : 0 < xs.countP (fun y => decide (y = x)) :=
      List.countP_pos.mpr ⟨x, hx, decide_eq_true rfl⟩
    omega
  unfold rankValue
  have hub : ((xs.countP (fun y => decide (if ascending then y < x else x < y)) : ℚ) +
      ((xs.countP (fun y => decide (y = x)) : ℚ) + 1) / 2) < (xs.length : ℚ) + 1 := by
    have hc1 : ((xs.countP (fun y => decide (if ascending then y < x else x < y)) : ℚ) +
        (xs.countP (fun y => decide (y = x)) : ℚ)) ≤ (xs.length : ℚ) := by
      exact_mod_cast hsum
    have hc2 : (1 : ℚ) ≤ (xs.countP (fun y => decide (y = x)) : ℚ) := by exact_mod_cast hcEq
    linarith
  have hb : ¬ ((xs.length : Int) + 1 ≤ Rat.floor
      ((xs.countP (fun y => decide (if ascending then y < x else x < y)) : ℚ) +
        ((xs.countP (fun y => decide (y = x)) : ℚ) + 1) / 2)) := by
    intro h
    have hc := Rat.le_floor.mp h
    push_cast at hc
    push_cast at hub
    linarith
  omega

theorem rankValue_of_nodup (ascending : Bool) (xs : List ℚ) (x : ℚ)
    (hnd : xs.Nodup) (hx : x ∈ xs) :
    rankValue ascending xs x =
      (xs.countP (fun y => decide (if ascending then y < x else x < y)) : Int) + 1 := by
  unfold rankValue
  rw [countP_self_eq_one xs x hnd hx]
  have hq : ((xs.countP (fun y => decide (if ascending then y < x else x < y)) : ℚ) +
      (((1 : Nat) : ℚ) + 1) / 2) =
      (((xs.countP (fun y => decide (if ascending then y < x else x < y)) : Int) + 1 : Int) : ℚ) := by
    push_cast
    ring
  rw [hq, ratFloor_eq_intCast]

/-- Claim C8, counterexample to the claim as stated: on a tied group the code
produces truncated average ranks, not ordinal ranks, and the output ranks do
not start at 1: all four tied values receive rank 2. -/
theorem claim_C8_counterexample :
    rankColumn true [5, 5, 5, 5] = [2, 2, 2, 2] ∧
    (1 : Int) ∉ rankColumn true [5, 5, 5, 5] := by
  have h1 : ([5, 5, 5, 5] : List ℚ).countP
      (fun y => decide (if (true : Bool) then y < 5 else 5 < y)) = 0 := by decide
  have h2 : ([5, 5, 5, 5] : List ℚ).countP (fun y => decide (y = 5)) = 4 := by decide
  have hval : rankValue true [5, 5, 5, 5] (5 : ℚ) = 2 := by
    unfold rankValue
    rw [h1, h2]
    apply ratFloor_eq_of
    · push_cast
      norm_num
    · push_cast
      norm_num
  have hcol : rankColumn true [5, 5, 5, 5] = [2, 2, 2, 2] := by
    unfold rankColumn
    simp only [List.map_cons, List.map_nil, hval]
  refine ⟨hcol, ?_⟩
  rw [hcol]
  decide

/-- Claim C8, amended: `rank_on_date_by_key` ranks ascending or descending per
its flag with tied values sharing the truncated average rank; every output
rank lies in `[1, group size]`; and when the group values are all distinct the
output is the ordinal rank starting at 1, with rank 1 attained. -/
theorem claim_C8_rank (ascending : Bool) (xs : List ℚ) :
    (∀ r ∈ rankColumn ascending xs, 1 ≤ r ∧ r ≤ (xs.length : Int)) ∧
    (xs.Nodup → rankColumn ascending xs = xs.map (fun x =>
      (xs.countP (fun y => decide (if ascending then y < x else x < y)) : Int) + 1)) ∧
    (xs.Nodup → xs ≠ [] → (1 : Int) ∈ rankColumn ascending xs) := by
  refine ⟨?_, ?_, ?_⟩
  · intro r hr
    obtain ⟨x, hx, rfl⟩ := List.mem_map.mp hr
    exact ⟨rankValue_ge_one ascending xs x hx, rankValue_le_length ascending xs x hx⟩
  · intro hnd
    exact List.map_congr_left (fun x hx => rankValue_of_nodup ascending xs x hnd hx)
  · intro hnd hne
    cases ascending with
    | false =>
      obtain ⟨x0, hx0, hmax⟩ := exists_max_rat xs hne
      refine List.mem_map.mpr ⟨x0, hx0, ?_⟩
      rw [rankValue_of_nodup false xs x0 hnd hx0]
      have hz : xs.countP (fun y => decide (if (false : Bool) then y < x0 else x0 < y)) = 0 :=
        List.countP_eq_zero.mpr (fun b hb hbx => hmax b hb (by simpa using hbx))
      rw [hz]
      rfl
    | true =>
      obtain ⟨x0, hx0, hmin⟩ := exists_min_rat xs hne
      refine List.mem_map.mpr ⟨x0, hx0, ?_⟩
      rw [rankValue_of_nodup true xs x0 hnd hx0]
      have hz : xs.countP (fun y => decide (if (true : Bool) then y < x0 else x0 < y)) = 0 :=
        List.countP_eq_zero.mpr (fun b hb hbx => hmin b hb (by simpa using hbx))
      rw [hz]
      rfl

theorem claim_C8_witness :
    ([(3 : ℚ), 1, 2].Nodup) ∧ ([(3 : ℚ), 1, 2] ≠ []) ∧
    (1 : Int) ∈ rankColumn true [3, 1, 2] :=
  ⟨by decide, by decide, (claim_C8_rank true [3, 1, 2]).2.2 (by decide) (by decide)⟩

/-!
Claim C7: quantile bucketing. `pandas.qcut` raises on duplicate bin edges, a
condition neither implied nor excluded by the number of distinct values.
-/

/-- Claim C7, counterexample to the claim as stated: the group `[1, 1, 1, 2]`
has 2 distinct values yet `qcut` with `k = 2` raises (duplicate quantile
edges), and the group `[0, 1]` has fewer than 3 distinct values yet `qcut`
with `k = 3` succeeds with labels `[0, 2]`. -/
theorem claim_C7_counterexample :
    2 ≤ distinctCount [1, 1, 1, 2] ∧ qcutModel [1, 1, 1, 2] 2 = none ∧
    distinctCount [0, 1] < 3 ∧ qcutModel [0, 1] 3 = some [0, 2] := by
  have hs1 : sortedVals [(1 : ℚ), 1, 1, 2] = [1, 1, 1, 2] := by decide
  have hq10 : quantileLin [(1 : ℚ), 1, 1, 2] 0 2 = 1 := by
    unfold quantileLin
    rw [hs1]
    norm_num
  have hq11 : quantileLin [(1 : ℚ), 1, 1, 2] 1 2 = 1 := by
    unfold quantileLin
    rw [hs1]
    norm_num
  have hq12 : quantileLin [(1 : ℚ), 1, 1, 2] 2 2 = 2 := by
    unfold quantileLin
    rw [hs1]
    norm_num
  have hedges1 : qcutEdges [(1 : ℚ), 1, 1, 2] 2 = [1, 1, 2] := by
    unfold qcutEdges
    rw [show List.range 3 = [0, 1, 2] from rfl]
    simp only [List.map_cons, List.map_nil]
    rw [hq10, hq11, hq12]
  have hs2 : sortedVals [(0 : ℚ), 1] = [0, 1] := by decide
  have hq20 : quantileLin [(0 : ℚ), 1] 0 3 = 0 := by
    unfold quantileLin
    rw [hs2]
    norm_num
  have hq21 : quantileLin [(0 : ℚ), 1] 1 3 = 1 / 3 := by
    unfold quantileLin
    rw [hs2]
    norm_num
  have hq22 : quantileLin [(0 : ℚ), 1] 2 3 = 2 / 3 := by
    unfold quantileLin
    rw [hs2]
    norm_num
  have hq23 : quantileLin [(0 : ℚ), 1] 3 3 = 1 := by
    unfold quantileLin
    rw [hs2]
    norm_num
  have hedges2 : qcutEdges [(0 : ℚ), 1] 3 = [0, 1 / 3, 2 / 3, 1] := by
    unfold qcutEdges
    rw [show List.range 4 = [0, 1, 2, 3] from rfl]
    simp only [List.map_cons, List.map_nil]
    rw [hq20, hq21, hq22, hq23]
  refine ⟨by decide, ?_, by decide, ?_⟩
  · unfold qcutModel
    rw [hedges1]
    rw [if_neg (by decide)]
  · unfold qcutModel
    rw [hedges2]
    rw [if_pos (by norm_num [List.nodup_cons])]
    unfold qcutLabel
    simp only [List.map_cons, List.map_nil]
    norm_num [List.countP_cons, List.countP_nil]

/-- Claim C7, amended: quantile bucketing with `k` requested buckets succeeds
exactly when the `k + 1` interpolated quantile edges are pairwise distinct
(which at least `k` distinct group values does not guarantee, and fewer than
`k` distinct values does not preclude), and on success every emitted integer
label lies in `{0, ..., k - 1}`. -/
theorem claim_C7_quantile (xs : List ℚ) (k : Nat) (hk : 0 < k) :
    ((qcutModel xs k).isSome = true ↔ (qcutEdges xs k).Nodup) ∧
    (∀ ls, qcutModel xs k = some ls → ∀ l ∈ ls, l < k) := by
  constructor
  · unfold qcutModel
    by_cases h : (qcutEdges xs k).Nodup
    · rw [if_pos h]
      simp [h]
    · rw [if_neg h]
      simp [h]
  · intro ls hls l hl
    unfold qcutModel at hls
    by_cases h : (qcutEdges xs k).Nodup
    · rw [if_pos h] at hls
      have hls2 : ls = xs.map (qcutLabel (qcutEdges xs k)) := (Option.some.inj hls).symm
      subst hls2
      obtain ⟨x, _, rfl⟩ := List.mem_map.mp hl
      unfold qcutLabel
      have hlen : (((qcutEdges xs k).drop 1).dropLast).length = k - 1 := by
        rw [List.length_dropLast, List.length_drop]
        unfold qcutEdges
        rw [List.length_map, List.length_range]
        omega
      have hle : (((qcutEdges xs k).drop 1).dropLast).countP (fun e => decide (e < x)) ≤
          (((qcutEdges xs k).drop 1).dropLast).length :=
        List.countP_le_length _
      omega
    · rw [if_neg h] at hls
      exact absurd hls (by simp)

theorem claim_C7_witness :
    (0 < 5) ∧
    ((qcutModel [0, 1, 2, 3, 4] 5).isSome = true ↔ (qcutEdges [0, 1, 2, 3, 4] 5).Nodup) :=
  ⟨by decide, (claim_C7_quantile [0, 1, 2, 3, 4] 5 (by decide)).1⟩

/-!
Claim C9: the row-count invariant of the identifier backfill.
-/

theorem unambiguousMappings_count (sq : List MappingRow) (c : Int) :
    (unambiguousMappings sq).countP (fun s => decide (s.infocode = c)) ≤ 1 := by
  unfold unambiguousMappings
  rw [List.countP_filter]
  by_cases h : sq.countP (fun s => decide (s.infocode = c)) = 1
  · have hmono : sq.countP (fun a => decide (a.infocode = c) &&
        decide (sq.countP (fun s => decide (s.infocode = a.infocode)) = 1)) ≤
        sq.countP (fun s => decide (s.infocode = c)) :=
      List.countP_mono_left (fun x _ hb => by rw [Bool.and_eq_true] at hb; exact hb.1)
    omega
  · have hz : sq.countP (fun a => decide (a.infocode = c) &&
        decide (sq.countP (fun s => decide (s.infocode = a.infocode)) = 1)) = 0 := by
      refine List.countP_eq_zero.mpr ?_
      intro a _ hb
      rw [Bool.and_eq_true] at hb
      obtain ⟨hb1, hb2⟩ := hb
      have hac : a.infocode = c := of_decide_eq_true hb1
      have hcount := of_decide_eq_true hb2
      rw [hac] at hcount
      exact h hcount
    omega

theorem leftMergeInfocode_length (left : List GridRow) (right : List MappingRow)
    (h1 : ∀ c, right.countP (fun s => decide (s.infocode = c)) ≤ 1) :
    (leftMergeInfocode left right).length = left.length := by
  unfold leftMergeInfocode
  induction left with
  | nil => simp
  | cons a t ih =>
    rw [List.flatMap_cons, List.length_append, ih, List.length_cons]
    by_cases hms : (right.filter (fun m => decide (m.infocode = a.infocode))).isEmpty
    · rw [if_pos hms]
      simp only [List.length_cons, List.length_nil]
      omega
    · rw [if_neg hms]
      rw [List.length_map]
      have hle := h1 a.infocode
      have hlen : (right.filter (fun m => decide (m.infocode = a.infocode))).length =
          right.countP (fun s => decide (s.infocode = a.infocode)) :=
        (List.countP_eq_length_filter _ _).symm
      have hpos : 0 < (right.filter (fun m => decide (m.infocode = a.infocode))).length := by
        refine List.length_pos.mpr ?_
        intro he
        rw [he] at hms
        exact hms rfl
      omega

theorem countP_mem_eq_length (A B : List (Int × Int))
    (hA : A.Nodup) (hB : B.Nodup) (hsub : ∀ x ∈ B, x ∈ A) :
    A.countP (fun x => decide (x ∈ B)) = B.length := by
  rw [List.countP_eq_length_filter]
  have hfn : (A.filter (fun x => decide (x ∈ B))).Nodup := hA.filter _
  have hf : (A.filter (fun x => decide (x ∈ B))).toFinset = B.toFinset := by
    ext x
    simp only [List.mem_toFinset, List.mem_filter]
    constructor
    · exact fun ⟨_, hx⟩ => of_decide_eq_true hx
    · exact fun hx => ⟨hsub x hx, decide_eq_true hx⟩
  have h1 : (A.filter (fun x => decide (x ∈ B))).toFinset.card =
      (A.filter (fun x => decide (x ∈ B))).length := List.toFinset_card_of_nodup hfn
  have h2 : B.toFinset.card = B.length := List.toFinset_card_of_nodup hB
  rw [← h1, hf, h2]

theorem filter_not_add_filter_length (l : List α) (p : α → Bool) :
    (l.filter (fun a => !p a)).length + (l.filter p).length = l.length := by
  induction l with
  | nil => simp
  | cons a t ih =>
    by_cases h : p a = true
    · simp [List.filter_cons, h]
      omega
    · rw [Bool.not_eq_true] at h
      simp [List.filter_cons, h]
      omega

/-- Claim C9: under panel key uniqueness and at most one point-in-time fill
row per panel key (the unambiguous one-to-one mapping precondition),
`__fill_missing_values` returns exactly as many rows as the input panel: the
left merge with the deduplicated current-mapping table is
cardinality-preserving, so the asserted row-count invariant holds. -/
theorem claim_C9_row_count (panel : List GridRow) (fill_values : List FilledRow)
    (sq : List MappingRow)
    (hp : (panel.map (fun r => (r.infocode, r.date))).Nodup)
    (hf1 : (fill_values.map (fun f => (f.infocode, f.date))).Nodup)
    (hf2 : ∀ f ∈ fill_values, ∃ r ∈ panel, r.infocode = f.infocode ∧ r.date = f.date) :
    (fillMissingValues panel fill_values sq).length = panel.length := by
  have hkey : ∀ r ∈ panel, coveredByFill fill_values r =
      decide ((r.infocode, r.date) ∈ fill_values.map (fun f => (f.infocode, f.date))) := by
    intro r _
    by_cases hmem : (r.infocode, r.date) ∈ fill_values.map (fun f => (f.infocode, f.date))
    · rw [decide_eq_true hmem]
      unfold coveredByFill
      refine List.any_eq_true.mpr ?_
      obtain ⟨f, hf, hfe⟩ := List.mem_map.mp hmem
      rw [Prod.mk.injEq] at hfe
      exact ⟨f, hf, decide_eq_true ⟨hfe.1, hfe.2⟩⟩
    · rw [decide_eq_false hmem]
      unfold coveredByFill
      cases hca : fill_values.any (fun f => decide (f.infocode = r.infocode ∧ f.date = r.date)) with
      | false => rfl
      | true =>
        exfalso
        obtain ⟨f, hf, hfd⟩ := List.any_eq_true.mp hca
        have hc := of_decide_eq_true hfd
        exact hmem (List.mem_map.mpr ⟨f, hf, by rw [hc.1, hc.2]⟩)
  have hsub : ∀ x ∈ fill_values.map (fun f => (f.infocode, f.date)),
      x ∈ panel.map (fun r => (r.infocode, r.date)) := by
    intro x hx
    obtain ⟨f, hf, rfl⟩ := List.mem_map.mp hx
    obtain ⟨r, hr, hr1, hr2⟩ := hf2 f hf
    exact List.mem_map.mpr ⟨r, hr, by rw [hr1, hr2]⟩
  have hcov : (panel.filter (coveredByFill fill_values)).length = fill_values.length := by
    rw [List.filter_congr hkey, ← List.countP_eq_length_filter]
    have hc2 : panel.countP
        (fun r => decide ((r.infocode, r.date) ∈
          fill_values.map (fun f => (f.infocode, f.date)))) =
        (panel.map (fun r => (r.infocode, r.date))).countP
          (fun x => decide (x ∈ fill_values.map (fun f => (f.infocode, f.date)))) :=
      by
        rw [List.countP_map
          (fun x => decide (x ∈ fill_values.map (fun f => (f.infocode, f.date))))
          (fun r => (r.infocode, r.date)) panel]
        rfl
    have h3 := countP_mem_eq_length (panel.map (fun r => (r.infocode, r.date)))
      (fill_values.map (fun f => (f.infocode, f.date))) hp hf1 hsub
    rw [List.length_map] at h3
    exact hc2.trans h3
  have hpart := filter_not_add_filter_length panel (coveredByFill fill_values)
  unfold fillMissingValues
  by_cases hm : (panel.filter (fun r => !coveredByFill fill_values r)).isEmpty
  · rw [if_pos hm]
    have h0 : (panel.filter (fun r => !coveredByFill fill_values r)).length = 0 := by
      rw [List.isEmpty_iff.mp hm]
      rfl
    omega
  · rw [if_neg hm]
    rw [List.length_append,
      leftMergeInfocode_length _ _ (fun c => unambiguousMappings_count sq c)]
    omega

theorem claim_C9_witness :
    (([(⟨1, 1⟩ : GridRow), ⟨1, 2⟩, ⟨2, 1⟩].map (fun r => (r.infocode, r.date))).Nodup) ∧
    (([(⟨1, 1, some 5⟩ : FilledRow)].map (fun f => (f.infocode, f.date))).Nodup) ∧
    (∀ f ∈ [(⟨1, 1, some 5⟩ : FilledRow)], ∃ r ∈ [(⟨1, 1⟩ : GridRow), ⟨1, 2⟩, ⟨2, 1⟩],
      r.infocode = f.infocode ∧ r.date = f.date) ∧
    (fillMissingValues [⟨1, 1⟩, ⟨1, 2⟩, ⟨2, 1⟩] [⟨1, 1, some 5⟩]
      [⟨1, 50⟩, ⟨2, 60⟩, ⟨2, 61⟩]).length = ([(⟨1, 1⟩ : GridRow), ⟨1, 2⟩, ⟨2, 1⟩]).length :=
  ⟨by decide, by decide, by decide,
   claim_C9_row_count [⟨1, 1⟩, ⟨1, 2⟩, ⟨2, 1⟩] [⟨1, 1, some 5⟩]
     [⟨1, 50⟩, ⟨2, 60⟩, ⟨2, 61⟩] (by decide) (by decide) (by decide)⟩

end CtrlAltData
